import Mathlib

/-!
# Verification of the AI-usage governance layer (rate limiter + response cache)

Shallow embedding of `backend/services/rate_limiter.py`,
`backend/models/ai_usage.py` and `backend/services/ai_cache.py`.

Conventions of the embedding:
* timestamps (`datetime.utcnow()` / `time.time()`) are modelled as `Int`
  seconds and every operation receives the current instant `now` explicitly;
* the database table of `AIUsage` rows is a `List AIUsage`, and the SQL
  `select ... where` count is a `List.countP` with the same conditions;
* the `rate_limit_config` table is a `List RateLimitConfig`; `.first()` of a
  query is `List.find?` with the query's predicate;
* Python dicts keyed by strings are association lists `List (String × _)`,
  `dict.get(k, d)` is `(List.lookup k _).getD d`;
* exceptions become `Except`: `check_rate_limit` either raises
  `RateLimitExceeded` (`.error`) or returns `(True, None)` (`.ok`).
-/

/-! ## `backend/models/ai_usage.py` -/

/-- One row of the `ai_usage` table (`class AIUsage`).  Only the columns that
the rate limiter reads (`user_id`, `endpoint`, `request_timestamp`) are
modelled; the token/cost/latency metadata columns play no role in the
claims. -/
structure AIUsage where
  user_id : String
  endpoint : String
  request_timestamp : Int
deriving DecidableEq, Repr

/-- The three thresholds dict returned by `_get_rate_limits`
(keys `requests_per_minute`, `requests_per_hour`, `requests_per_day`). -/
structure RateLimits where
  requests_per_minute : Nat
  requests_per_hour : Nat
  requests_per_day : Nat
deriving DecidableEq, Repr

/-- One row of the `rate_limit_config` table (`class RateLimitConfig`). -/
structure RateLimitConfig where
  target_type : String
  target_value : String
  requests_per_minute : Nat := 10
  requests_per_hour : Nat := 100
  requests_per_day : Nat := 500
  is_active : Bool := true
deriving DecidableEq, Repr

/-- `DEFAULT_RATE_LIMITS` from `backend/models/ai_usage.py`. -/
def DEFAULT_RATE_LIMITS : List (String × RateLimits) :=
  [("Faculty", ⟨5, 50, 200⟩),
   ("Chair", ⟨10, 100, 500⟩),
   ("Dean", ⟨15, 150, 750⟩),
   ("Admin", ⟨30, 300, 1500⟩),
   ("PROC", ⟨10, 100, 500⟩)]

/-! ## `backend/services/rate_limiter.py` -/

/-- The `RateLimitExceeded` exception and its payload. -/
structure RateLimitExceeded where
  message : String
  limit_type : String
  current_count : Nat
  limit : Nat
  reset_time : Int
deriving DecidableEq, Repr

/-- `RateLimiterService._count_requests`: the SQL query counts rows with
`AIUsage.user_id == user_id` and `AIUsage.request_timestamp >= since`.
The `endpoint` parameter is accepted but, exactly as in the source, never
used in a filter. -/
def countRequests (events : List AIUsage) (user_id : String)
    (endpoint : Option String) (since : Int) : Nat :=
  events.countP (fun e => e.user_id == user_id && since ≤ e.request_timestamp)

/-- `RateLimiterService._get_rate_limits`: user-specific override, then
role-based config, then `DEFAULT_RATE_LIMITS` with the hardcoded
`{10, 100, 500}` fallback. -/
def getRateLimits (configs : List RateLimitConfig) (user_id : String)
    (role : String) : RateLimits :=
  match configs.find? (fun c =>
      c.target_type == "user" && c.target_value == user_id && c.is_active) with
  | some c => ⟨c.requests_per_minute, c.requests_per_hour, c.requests_per_day⟩
  | none =>
    match configs.find? (fun c =>
        c.target_type == "role" && c.target_value == role && c.is_active) with
    | some c => ⟨c.requests_per_minute, c.requests_per_hour, c.requests_per_day⟩
    | none => (DEFAULT_RATE_LIMITS.lookup role).getD ⟨10, 100, 500⟩

/-- The window list iterated by `check_rate_limit`: name, duration in
seconds (`timedelta(minutes=1)`, `(hours=1)`, `(days=1)`) and the resolved
threshold for that window. -/
def windowSpecs (limits : RateLimits) : List (String × Int × Nat) :=
  [("minute", 60, limits.requests_per_minute),
   ("hour", 3600, limits.requests_per_hour),
   ("day", 86400, limits.requests_per_day)]

/-- The body of the `for window_name, window_config in [...]` loop of
`check_rate_limit`: the first window whose count reaches its limit raises,
otherwise the loop falls through to `return True, None`. -/
def checkWindows (events : List AIUsage) (user_id : String) (endpoint : String)
    (now : Int) : List (String × Int × Nat) →
    Except RateLimitExceeded (Bool × Option String)
  | [] => .ok (true, none)
  | (name, dur, limit) :: rest =>
    let window_start := now - dur
    let count := countRequests events user_id (some endpoint) window_start
    if limit ≤ count then
      .error ⟨"Rate limit exceeded: " ++ toString count ++ "/" ++
          toString limit ++ " requests per " ++ name,
        name, count, limit, window_start + dur⟩
    else
      checkWindows events user_id endpoint now rest

/-- `RateLimiterService.check_rate_limit` for a user with the given id and
role, against the given `ai_usage` rows and `rate_limit_config` rows. -/
def checkRateLimit (events : List AIUsage) (configs : List RateLimitConfig)
    (user_id : String) (role : String) (endpoint : String) (now : Int) :
    Except RateLimitExceeded (Bool × Option String) :=
  checkWindows events user_id endpoint now
    (windowSpecs (getRateLimits configs user_id role))

/-- The exception message built by the f-string in `check_rate_limit`. -/
def rateLimitMessage (count : Nat) (limit : Nat) (name : String) : String :=
  "Rate limit exceeded: " ++ toString count ++ "/" ++ toString limit ++
    " requests per " ++ name

/-- The timestamp of the oldest `AIUsage` row of the caller counted in the
window starting at `since` (the claim's notion used for the reset time). -/
def oldestCounted (events : List AIUsage) (user_id : String) (since : Int) :
    Option Int :=
  ((events.filter
      (fun e => e.user_id == user_id && since ≤ e.request_timestamp)).map
    (fun e => e.request_timestamp)).min?

/-! ## `backend/services/ai_cache.py` -/

/-- `class CacheEntry(Generic[T])`. -/
structure CacheEntry (V : Type) where
  value : V
  created_at : Int
  expires_at : Int
  hit_count : Nat := 0
  last_accessed : Int
deriving DecidableEq, Repr

/-- `CacheEntry.is_expired`: `time.time() > self.expires_at`. -/
def CacheEntry.is_expired (e : CacheEntry V) (now : Int) : Bool :=
  e.expires_at < now

/-- `class CacheStats`.  `current_size` is an `Int` because `get` decrements
it with `-= 1`. -/
structure CacheStats where
  hits : Nat := 0
  misses : Nat := 0
  evictions : Nat := 0
  current_size : Int := 0
  max_size : Nat := 0
deriving DecidableEq, Repr

/-- `AICache.DEFAULT_TTLS`. -/
def DEFAULT_TTLS : List (String × Nat) :=
  [("analyze", 3600), ("expand", 1800), ("equity_check", 3600),
   ("chat", 300), ("socratic", 600), ("default", 1800)]

/-- `class AICache`.  The `OrderedDict` `self._cache` is an association
list in insertion/recency order: head = least recently used, last = most
recently used. -/
structure AICache (V : Type) where
  max_size : Nat
  cache : List (String × CacheEntry V)
  stats : CacheStats
deriving DecidableEq, Repr

/-- `AICache(max_size=n)`: empty `OrderedDict`, `CacheStats(max_size=n)`. -/
def emptyCache (V : Type) (max_size : Nat) : AICache V :=
  { max_size := max_size, cache := [], stats := { max_size := max_size } }

/-- `key in self._cache` / `self._cache[key]`: the entry stored under a key
(`OrderedDict` keys are unique, so "first match" is "the match"). -/
def lookupEntry : List (String × CacheEntry V) → String → Option (CacheEntry V)
  | [], _ => none
  | p :: rest, k => if p.1 == k then some p.2 else lookupEntry rest k

/-- `del self._cache[key]`: drop the pair stored under `k`. -/
def eraseEntry : List (String × CacheEntry V) → String → List (String × CacheEntry V)
  | [], _ => []
  | p :: rest, k => if p.1 == k then rest else p :: eraseEntry rest k

/-- `self._cache[key] = entry`: replace in place when the key is present,
append at the (most-recently-used) end when it is new. -/
def setEntry : List (String × CacheEntry V) → String → CacheEntry V →
    List (String × CacheEntry V)
  | [], k, e => [(k, e)]
  | p :: rest, k, e => if p.1 == k then (k, e) :: rest else p :: setEntry rest k e

/-- `self._cache.move_to_end(key)` (our call sites always have the key
present, where Python would otherwise raise `KeyError`). -/
def moveToEnd (l : List (String × CacheEntry V)) (k : String) :
    List (String × CacheEntry V) :=
  match lookupEntry l k with
  | none => l
  | some e => eraseEntry l k ++ [(k, e)]

/-- `AICache._evict_oldest`: `popitem(last=False)` plus statistics updates,
a no-op on an empty cache. -/
def evictOldest (c : AICache V) : AICache V :=
  match c.cache with
  | [] => c
  | _ :: rest =>
    { c with cache := rest,
             stats := { c.stats with evictions := c.stats.evictions + 1,
                                     current_size := (rest.length : Int) } }

/-- Fuel-indexed unfolding of the eviction `while` loop; every iteration
removes one entry, so `c.cache.length` steps of fuel run it to completion. -/
def evictLoopAux : Nat → AICache V → AICache V
  | 0, c => c
  | fuel + 1, c =>
    if c.max_size ≤ c.cache.length ∧ 0 < c.cache.length then
      evictLoopAux fuel (evictOldest c)
    else c

/-- The `while len(self._cache) >= self.max_size: self._evict_oldest()` loop
of `AICache.set`.  The `0 < length` guard makes the function total; it
agrees with the source whenever `max_size ≥ 1` (the loop in the source
never terminates when `max_size = 0` and the cache has emptied). -/
def evictLoop (c : AICache V) : AICache V :=
  evictLoopAux c.cache.length c

/-- `AICache.get`.  The key was already produced by `_generate_key`
(modelled separately); returns the cached value (or `None`) and the new
cache state. -/
def AICache.get (c : AICache V) (key : String) (now : Int) :
    Option V × AICache V :=
  match lookupEntry c.cache key with
  | none =>
    (none, { c with stats := { c.stats with misses := c.stats.misses + 1 } })
  | some entry =>
    if entry.is_expired now then
      (none, { c with cache := eraseEntry c.cache key,
                      stats := { c.stats with
                                   current_size := c.stats.current_size - 1,
                                   misses := c.stats.misses + 1 } })
    else
      let entry' := { entry with hit_count := entry.hit_count + 1,
                                 last_accessed := now }
      (entry'.value,
       { c with cache := moveToEnd (setEntry c.cache key entry') key,
                stats := { c.stats with hits := c.stats.hits + 1 } })

/-- The `CacheEntry(...)` literal built inside `AICache.set`. -/
def mkEntry (v : V) (now : Int) (ttl : Nat) : CacheEntry V :=
  { value := v, created_at := now, expires_at := now + (ttl : Int),
    hit_count := 0, last_accessed := now }

/-- `ttl = self.DEFAULT_TTLS.get(endpoint, self.DEFAULT_TTLS["default"])`
when no explicit ttl was passed. -/
def resolveTtl (endpoint : String) (ttl : Option Nat) : Nat :=
  match ttl with
  | some t => t
  | none => (DEFAULT_TTLS.lookup endpoint).getD 1800

/-- `AICache.set`.  `key` stands for the `_generate_key(endpoint,
prompt_data, user_id)` result; returns the new cache state and the key. -/
def AICache.set (c : AICache V) (endpoint : String) (key : String) (value : V)
    (ttl : Option Nat) (now : Int) : AICache V × String :=
  let entry := mkEntry value now (resolveTtl endpoint ttl)
  if (lookupEntry c.cache key).isSome then
    ({ c with cache := moveToEnd (setEntry c.cache key entry) key }, key)
  else
    let c' := evictLoop c
    let cache'' := setEntry c'.cache key entry
    ({ c' with cache := cache'',
               stats := { c'.stats with current_size := (cache''.length : Int) } },
     key)

/-- `AICache.invalidate` (key-level): returns whether an entry was removed
and the new cache state. -/
def AICache.invalidate (c : AICache V) (key : String) : Bool × AICache V :=
  if (lookupEntry c.cache key).isSome then
    let cache' := eraseEntry c.cache key
    (true, { c with cache := cache',
                    stats := { c.stats with current_size := (cache'.length : Int) } })
  else
    (false, c)

/-- Cached AI responses are JSON objects; `entry.value.get("_endpoint")`
only makes sense on dict values, so `invalidate_by_endpoint` is modelled on
caches whose values are string dicts. -/
abbrev PyDict : Type := List (String × String)

/-- Python `dict.get(k)`: `None` when the key is missing. -/
def pyGet (d : PyDict) (k : String) : Option String :=
  match d with
  | [] => none
  | p :: rest => if p.1 == k then some p.2 else pyGet rest k

/-- `AICache.invalidate_by_endpoint`: collect the keys whose entry's value
has `value.get("_endpoint") == endpoint`, delete each collected key, return
the new state and the number removed. -/
def AICache.invalidateByEndpoint (c : AICache PyDict) (endpoint : String) :
    AICache PyDict × Nat :=
  let keysToRemove :=
    (c.cache.filter
        (fun p => pyGet p.2.value "_endpoint" == some endpoint)).map
      (fun p => p.1)
  let cache' := keysToRemove.foldl (fun acc k => eraseEntry acc k) c.cache
  ({ c with cache := cache',
            stats := { c.stats with current_size := (cache'.length : Int) } },
   keysToRemove.length)

/-- The operations a client can perform on one `AICache` instance, for
stating invariants over arbitrary operation sequences. -/
inductive CacheOp (V : Type) where
  | get (key : String) (now : Int)
  | set (endpoint : String) (key : String) (value : V) (ttl : Option Nat) (now : Int)
  | invalidate (key : String)

/-- Run one operation, keeping only the state. -/
def applyOp (c : AICache V) : CacheOp V → AICache V
  | .get k now => (c.get k now).2
  | .set ep k v ttl now => (c.set ep k v ttl now).1
  | .invalidate k => (c.invalidate k).2

/-- Run a sequence of operations. -/
def applyOps (c : AICache V) (ops : List (CacheOp V)) : AICache V :=
  ops.foldl applyOp c

/-- The spec's capacity-2 scenario: insert fingerprint A, insert B, read A
(A becomes most recent), insert C. -/
def lruScenario : AICache String :=
  let c0 := emptyCache String 2
  let c1 := (c0.set "chat" "A" "va" (some 100) 0).1
  let c2 := (c1.set "chat" "B" "vb" (some 100) 1).1
  let c3 := (c2.get "A" 2).2
  (c3.set "chat" "C" "vc" (some 100) 3).1

/-! ## `AICache._generate_key`: `json.dumps(key_parts, sort_keys=True)`
followed by `hashlib.sha256(...).hexdigest()`.

JSON values are modelled by `JValue`; `json.dumps(..., sort_keys=True)` is
`serializeJ` after `canon`, which orders the fields of every object by key
at every nesting depth (string escaping inside `json.dumps` is not
modelled; it affects neither determinism nor order-independence).
`sha256().hexdigest()` is some fixed function of the serialized string, so
the key-equality theorems are stated for an arbitrary `hashFn`. -/

/-- A JSON value (the payloads `json.dumps` serializes). -/
inductive JValue where
  | str : String → JValue
  | num : Int → JValue
  | bool : Bool → JValue
  | null : JValue
  | arr : List JValue → JValue
  | obj : List (String × JValue) → JValue

/-- The key order produced by `sort_keys=True`. -/
def fieldLe (p q : String × JValue) : Prop := p.1 ≤ q.1

instance : DecidableRel (fieldLe) := fun p q =>
  inferInstanceAs (Decidable (p.1 ≤ q.1))

instance : IsTotal (String × JValue) fieldLe :=
  ⟨fun p q => le_total p.1 q.1⟩

instance : IsTrans (String × JValue) fieldLe :=
  ⟨fun _ _ _ h1 h2 => le_trans h1 h2⟩

/-- Strict key order; fields of a well-formed object (distinct keys) that
are sorted by `fieldLe` are in fact strictly sorted. -/
def fieldLt (p q : String × JValue) : Prop := p.1 < q.1

instance : IsAntisymm (String × JValue) fieldLt :=
  ⟨fun _ _ h1 h2 => (lt_asymm h1 h2).elim⟩

/-- Sort an object's fields by key (`sort_keys=True`). -/
def sortFields (l : List (String × JValue)) : List (String × JValue) :=
  l.insertionSort fieldLe

mutual

/-- Recursively order every object's fields by key: the canonical shape
that `json.dumps(..., sort_keys=True)` serializes. -/
def canon : JValue → JValue
  | .str s => .str s
  | .num n => .num n
  | .bool b => .bool b
  | .null => .null
  | .arr xs => .arr (canonList xs)
  | .obj fs => .obj (sortFields (canonFields fs))

def canonList : List JValue → List JValue
  | [] => []
  | x :: xs => canon x :: canonList xs

def canonFields : List (String × JValue) → List (String × JValue)
  | [] => []
  | (k, v) :: fs => (k, canon v) :: canonFields fs

end

/-- `"` ++ s ++ `"` (JSON string quoting; escaping not modelled). -/
def quoteStr (s : String) : String := "\"" ++ s ++ "\""

mutual

/-- Serialize a canonical `JValue` the way `json.dumps` prints it (default
separators `", "` and `": "`). -/
def serializeJ : JValue → String
  | .str s => quoteStr s
  | .num n => toString n
  | .bool b => if b then "true" else "false"
  | .null => "null"
  | .arr xs => "[" ++ serializeList xs ++ "]"
  | .obj fs => "\x7b" ++ serializeFields fs ++ "\x7d"

def serializeList : List JValue → String
  | [] => ""
  | [x] => serializeJ x
  | x :: xs => serializeJ x ++ ", " ++ serializeList xs

def serializeFields : List (String × JValue) → String
  | [] => ""
  | [(k, v)] => quoteStr k ++ ": " ++ serializeJ v
  | (k, v) :: fs => quoteStr k ++ ": " ++ serializeJ v ++ ", " ++ serializeFields fs

end

/-- `json.dumps(v, sort_keys=True, default=str)`. -/
def dumps (v : JValue) : String := serializeJ (canon v)

/-- No key occurs twice (Python dicts cannot hold duplicate keys). -/
def distinctKeys : List String → Bool
  | [] => true
  | k :: rest => !(rest.contains k) && distinctKeys rest

mutual

/-- Well-formedness: every object, at every depth, has pairwise distinct
keys — automatically true of values that came from Python dicts. -/
def wfJ : JValue → Bool
  | .str _ => true
  | .num _ => true
  | .bool _ => true
  | .null => true
  | .arr xs => wfList xs
  | .obj fs => distinctKeys (fs.map (fun p => p.1)) && wfFields fs

def wfList : List JValue → Bool
  | [] => true
  | x :: xs => wfJ x && wfList xs

def wfFields : List (String × JValue) → Bool
  | [] => true
  | (_, v) :: fs => wfJ v && wfFields fs

end

mutual

/-- Equality of JSON values as unordered structures: identical atoms,
pointwise-equivalent arrays, and objects with the same key-value mapping
regardless of field order, at any nesting depth. -/
inductive JEquiv : JValue → JValue → Prop where
  | str (s : String) : JEquiv (.str s) (.str s)
  | num (n : Int) : JEquiv (.num n) (.num n)
  | bool (b : Bool) : JEquiv (.bool b) (.bool b)
  | null : JEquiv .null .null
  | arr {xs ys : List JValue} : JEquivList xs ys → JEquiv (.arr xs) (.arr ys)
  | obj {fs gs gs' : List (String × JValue)} :
      JEquivFields fs gs' → gs'.Perm gs → JEquiv (.obj fs) (.obj gs)

/-- Pointwise equivalence of JSON arrays. -/
inductive JEquivList : List JValue → List JValue → Prop where
  | nil : JEquivList [] []
  | cons {x y : JValue} {xs ys : List JValue} :
      JEquiv x y → JEquivList xs ys → JEquivList (x :: xs) (y :: ys)

/-- Pointwise equivalence of field lists: same keys in the same order,
equivalent values. -/
inductive JEquivFields :
    List (String × JValue) → List (String × JValue) → Prop where
  | nil : JEquivFields [] []
  | cons {k : String} {v w : JValue} {fs gs : List (String × JValue)} :
      JEquiv v w → JEquivFields fs gs →
      JEquivFields ((k, v) :: fs) ((k, w) :: gs)

end

/-- The optional `"user_id"` field of `key_parts`: present exactly when
`if user_id:` is truthy (a non-`None`, non-empty string). -/
def userField (user_id : Option String) : List (String × JValue) :=
  match user_id with
  | some u => if u = "" then [] else [("user_id", .str u)]
  | none => []

/-- The `key_parts` dict of `_generate_key`: `{"endpoint": ..., "data":
...}`, plus `"user_id"` when `if user_id:` is truthy. -/
def keyParts (endpoint : String) (prompt_data : JValue)
    (user_id : Option String) : JValue :=
  .obj ([("endpoint", .str endpoint), ("data", prompt_data)] ++
    userField user_id)

/-- `AICache._generate_key`, with `hashlib.sha256(...).hexdigest()`
abstracted as an arbitrary function of the serialized bytes. -/
def generateKey (hashFn : String → String) (endpoint : String)
    (prompt_data : JValue) (user_id : Option String) : String :=
  hashFn (dumps (keyParts endpoint prompt_data user_id))

/-! ## Association-list lemmas for the `OrderedDict` model -/

theorem lookupEntry_none_append {l1 l2 : List (String × CacheEntry V)} {k : String}
    (h : lookupEntry l1 k = none) :
    lookupEntry (l1 ++ l2) k = lookupEntry l2 k := by
  induction l1 with
  | nil => rfl
  | cons p rest ih =>
    by_cases hk : p.1 = k
    · simp [lookupEntry, hk] at h
    · simp only [lookupEntry, List.cons_append] at h ⊢
      rw [if_neg (by simpa using hk)] at h ⊢
      exact ih h

theorem setEntry_of_lookup_none {l : List (String × CacheEntry V)} {k : String}
    (e : CacheEntry V) (h : lookupEntry l k = none) :
    setEntry l k e = l ++ [(k, e)] := by
  induction l with
  | nil => rfl
  | cons p rest ih =>
    by_cases hk : p.1 = k
    · simp [lookupEntry, hk] at h
    · simp only [lookupEntry] at h
      rw [if_neg (by simpa using hk)] at h
      simp only [setEntry, List.cons_append]
      rw [if_neg (by simpa using hk), ih h]

theorem setEntry_shape {pre suf : List (String × CacheEntry V)} {k : String}
    (e e' : CacheEntry V) (h : lookupEntry pre k = none) :
    setEntry (pre ++ (k, e) :: suf) k e' = pre ++ (k, e') :: suf := by
  induction pre with
  | nil => simp [setEntry]
  | cons p rest ih =>
    by_cases hk : p.1 = k
    · simp [lookupEntry, hk] at h
    · simp only [lookupEntry] at h
      rw [if_neg (by simpa using hk)] at h
      simp only [setEntry, List.cons_append, List.append_eq]
      rw [if_neg (by simpa using hk), ih h]

theorem eraseEntry_shape {pre suf : List (String × CacheEntry V)} {k : String}
    (e : CacheEntry V) (h : lookupEntry pre k = none) :
    eraseEntry (pre ++ (k, e) :: suf) k = pre ++ suf := by
  induction pre with
  | nil => simp [eraseEntry]
  | cons p rest ih =>
    by_cases hk : p.1 = k
    · simp [lookupEntry, hk] at h
    · simp only [lookupEntry] at h
      rw [if_neg (by simpa using hk)] at h
      simp only [eraseEntry, List.cons_append, List.append_eq]
      rw [if_neg (by simpa using hk), ih h]

theorem lookupEntry_shape {pre suf : List (String × CacheEntry V)} {k : String}
    (e : CacheEntry V) (h : lookupEntry pre k = none) :
    lookupEntry (pre ++ (k, e) :: suf) k = some e := by
  rw [lookupEntry_none_append h]
  simp [lookupEntry]

theorem lookup_decomp {l : List (String × CacheEntry V)} {k : String}
    {e : CacheEntry V} (h : lookupEntry l k = some e) :
    ∃ pre suf, l = pre ++ (k, e) :: suf ∧ lookupEntry pre k = none := by
  induction l with
  | nil => simp [lookupEntry] at h
  | cons p rest ih =>
    by_cases hk : p.1 = k
    · refine ⟨[], rest, ?_, rfl⟩
      simp only [lookupEntry] at h
      rw [if_pos (by simpa using hk)] at h
      cases h
      rcases p with ⟨pk, pe⟩
      cases hk
      rfl
    · simp only [lookupEntry] at h
      rw [if_neg (by simpa using hk)] at h
      obtain ⟨pre, suf, hl, hpre⟩ := ih h
      refine ⟨p :: pre, suf, by rw [hl, List.cons_append], ?_⟩
      simp only [lookupEntry]
      rw [if_neg (by simpa using hk)]
      exact hpre

theorem lookupEntry_middle_ne {pre suf : List (String × CacheEntry V)}
    {k k' : String} (e : CacheEntry V) (h : k' ≠ k) :
    lookupEntry (pre ++ (k, e) :: suf) k' = lookupEntry (pre ++ suf) k' := by
  induction pre with
  | nil =>
    simp only [List.nil_append, lookupEntry]
    rw [if_neg (by simpa using fun hh => h hh.symm)]
  | cons p rest ih =>
    by_cases hk : p.1 = k'
    · simp [lookupEntry, hk]
    · simp only [lookupEntry, List.cons_append]
      rw [if_neg (by simpa using hk), if_neg (by simpa using hk)]
      exact ih

theorem setEntry_length_le (l : List (String × CacheEntry V)) (k : String)
    (e : CacheEntry V) : (setEntry l k e).length ≤ l.length + 1 := by
  induction l with
  | nil => simp [setEntry]
  | cons p rest ih =>
    simp only [setEntry]
    split
    · simp
    · simpa using Nat.succ_le_succ ih

theorem setEntry_length_of_some {l : List (String × CacheEntry V)} {k : String}
    {e0 : CacheEntry V} (e : CacheEntry V) (h : lookupEntry l k = some e0) :
    (setEntry l k e).length = l.length := by
  induction l with
  | nil => simp [lookupEntry] at h
  | cons p rest ih =>
    by_cases hk : p.1 = k
    · simp only [setEntry]
      rw [if_pos (by simpa using hk)]
      simp
    · simp only [lookupEntry] at h
      rw [if_neg (by simpa using hk)] at h
      simp only [setEntry]
      rw [if_neg (by simpa using hk)]
      simpa using ih h

theorem eraseEntry_length_le (l : List (String × CacheEntry V)) (k : String) :
    (eraseEntry l k).length ≤ l.length := by
  induction l with
  | nil => simp [eraseEntry]
  | cons p rest ih =>
    simp only [eraseEntry]
    split
    · simp
    · simpa using Nat.succ_le_succ ih

theorem eraseEntry_length_of_some {l : List (String × CacheEntry V)} {k : String}
    {e : CacheEntry V} (h : lookupEntry l k = some e) :
    (eraseEntry l k).length + 1 = l.length := by
  induction l with
  | nil => simp [lookupEntry] at h
  | cons p rest ih =>
    by_cases hk : p.1 = k
    · simp only [eraseEntry]
      rw [if_pos (by simpa using hk)]
      simp
    · simp only [lookupEntry] at h
      rw [if_neg (by simpa using hk)] at h
      simp only [eraseEntry]
      rw [if_neg (by simpa using hk)]
      simpa using ih h

theorem moveToEnd_length (l : List (String × CacheEntry V)) (k : String) :
    (moveToEnd l k).length = l.length := by
  unfold moveToEnd
  cases h : lookupEntry l k with
  | none => rfl
  | some e =>
    have := eraseEntry_length_of_some h
    simpa using this

theorem moveToEnd_shape {pre suf : List (String × CacheEntry V)} {k : String}
    (e : CacheEntry V) (h : lookupEntry pre k = none) :
    moveToEnd (pre ++ (k, e) :: suf) k = (pre ++ suf) ++ [(k, e)] := by
  unfold moveToEnd
  rw [lookupEntry_shape e h, eraseEntry_shape e h]

/-! ## Lemmas about the eviction loop -/

theorem evictOldest_max (c : AICache V) : (evictOldest c).max_size = c.max_size := by
  rcases c with ⟨m, cc, st⟩
  cases cc <;> rfl

theorem evictOldest_length {c : AICache V} (h : 0 < c.cache.length) :
    (evictOldest c).cache.length + 1 = c.cache.length := by
  rcases c with ⟨m, cc, st⟩
  cases cc with
  | nil => simp at h
  | cons p rest => rfl

theorem evictOldest_lookup_none {c : AICache V} {k : String}
    (h : lookupEntry c.cache k = none) :
    lookupEntry (evictOldest c).cache k = none := by
  rcases c with ⟨m, cc, st⟩
  cases cc with
  | nil => exact h
  | cons p rest =>
    by_cases hk : p.1 = k
    · simp [lookupEntry, hk] at h
    · simp only [lookupEntry] at h
      rw [if_neg (by simpa using hk)] at h
      exact h

theorem evictLoopAux_max (fuel : Nat) (c : AICache V) :
    (evictLoopAux fuel c).max_size = c.max_size := by
  induction fuel generalizing c with
  | zero => rfl
  | succ fuel ih =>
    rw [evictLoopAux]
    split
    · rw [ih, evictOldest_max]
    · rfl

theorem evictLoop_max (c : AICache V) : (evictLoop c).max_size = c.max_size :=
  evictLoopAux_max _ c

theorem evictLoopAux_of_lt {c : AICache V} (fuel : Nat)
    (h : c.cache.length < c.max_size) : evictLoopAux fuel c = c := by
  cases fuel with
  | zero => rfl
  | succ fuel =>
    rw [evictLoopAux]
    split
    · rename_i hcond
      exact absurd hcond.1 (by omega)
    · rfl

theorem evictLoop_of_lt {c : AICache V} (h : c.cache.length < c.max_size) :
    evictLoop c = c :=
  evictLoopAux_of_lt _ h

theorem evictLoopAux_stop {fuel : Nat} (c : AICache V)
    (hf : c.cache.length ≤ fuel) :
    (evictLoopAux fuel c).cache.length < c.max_size ∨
    (evictLoopAux fuel c).cache.length = 0 := by
  induction fuel generalizing c with
  | zero =>
    right
    simp only [evictLoopAux]
    omega
  | succ fuel ih =>
    rw [evictLoopAux]
    split
    · rename_i hcond
      have h1 := evictOldest_length hcond.2
      have h2 := ih (evictOldest c) (by omega)
      rw [evictOldest_max] at h2
      exact h2
    · rename_i hcond
      omega

theorem evictLoop_stop (c : AICache V) :
    (evictLoop c).cache.length < c.max_size ∨ (evictLoop c).cache.length = 0 :=
  evictLoopAux_stop c (le_refl _)

theorem evictLoop_at_cap {c : AICache V} (h1 : 1 ≤ c.max_size)
    (h2 : c.cache.length = c.max_size) : evictLoop c = evictOldest c := by
  unfold evictLoop
  rcases hn : c.cache.length with - | fuel
  · omega
  · rw [evictLoopAux]
    split
    · rename_i hcond
      apply evictLoopAux_of_lt
      have := evictOldest_length hcond.2
      rw [evictOldest_max]
      omega
    · rename_i hcond
      exact absurd ⟨by omega, by omega⟩ hcond

theorem evictLoopAux_lookup_none {fuel : Nat} {c : AICache V} {k : String}
    (h : lookupEntry c.cache k = none) :
    lookupEntry (evictLoopAux fuel c).cache k = none := by
  induction fuel generalizing c with
  | zero => exact h
  | succ fuel ih =>
    rw [evictLoopAux]
    split
    · exact ih (evictOldest_lookup_none h)
    · exact h

theorem evictLoop_lookup_none {c : AICache V} {k : String}
    (h : lookupEntry c.cache k = none) :
    lookupEntry (evictLoop c).cache k = none :=
  evictLoopAux_lookup_none h

/-- Inserting a fresh fingerprint: the surviving prefix produced by the
eviction loop, with the new entry appended at the most-recently-used end. -/
theorem set_fresh_shape {c : AICache V} {key : String} (ep : String) (v : V)
    (ttl : Option Nat) (now : Int) (h : lookupEntry c.cache key = none) :
    (c.set ep key v ttl now).1.cache =
      (evictLoop c).cache ++ [(key, mkEntry v now (resolveTtl ep ttl))] ∧
    lookupEntry (evictLoop c).cache key = none := by
  refine ⟨?_, evictLoop_lookup_none h⟩
  simp only [AICache.set, h, Option.isSome_none, Bool.false_eq_true, if_false]
  exact setEntry_of_lookup_none _ (evictLoop_lookup_none h)

/-! ## Behaviour of `get`, `set` and `invalidate` per branch -/

theorem lookupEntry_not_mem {l : List (String × CacheEntry V)} {k : String}
    (h : k ∉ l.map (fun p => p.1)) : lookupEntry l k = none := by
  induction l with
  | nil => rfl
  | cons p rest ih =>
    simp only [List.map_cons, List.mem_cons] at h
    push_neg at h
    simp only [lookupEntry]
    rw [if_neg (by simpa using fun hh => h.1 hh.symm)]
    exact ih h.2

theorem lookupEntry_append_some {l1 l2 : List (String × CacheEntry V)}
    {k : String} {e : CacheEntry V} (h : lookupEntry l1 k = some e) :
    lookupEntry (l1 ++ l2) k = some e := by
  induction l1 with
  | nil => simp [lookupEntry] at h
  | cons p rest ih =>
    by_cases hk : p.1 = k
    · simp only [lookupEntry] at h
      rw [if_pos (by simpa using hk)] at h
      simp only [List.cons_append, lookupEntry]
      rw [if_pos (by simpa using hk)]
      exact h
    · simp only [lookupEntry] at h
      rw [if_neg (by simpa using hk)] at h
      simp only [List.cons_append, lookupEntry]
      rw [if_neg (by simpa using hk)]
      exact ih h

theorem getLast?_mem : ∀ {l : List α} {p : α}, l.getLast? = some p → p ∈ l
  | [], _, h => by simp at h
  | [q], p, h => by
    simp only [List.getLast?_singleton] at h
    cases h
    simp
  | q :: r :: rest, p, h => by
    rw [List.getLast?_cons_cons] at h
    exact List.mem_cons_of_mem _ (getLast?_mem h)

theorem get_miss {c : AICache V} {k : String} (now : Int)
    (h : lookupEntry c.cache k = none) :
    c.get k now =
      (none, { c with stats := { c.stats with misses := c.stats.misses + 1 } }) := by
  simp only [AICache.get, h]

theorem get_expired {c : AICache V} {k : String} {now : Int} {e : CacheEntry V}
    (h : lookupEntry c.cache k = some e) (hexp : e.expires_at < now) :
    c.get k now =
      (none, { c with cache := eraseEntry c.cache k,
                      stats := { c.stats with
                                   current_size := c.stats.current_size - 1,
                                   misses := c.stats.misses + 1 } }) := by
  have hb : e.is_expired now = true := by
    simp only [CacheEntry.is_expired, decide_eq_true_eq]
    exact hexp
  simp only [AICache.get, h, hb, if_true]

theorem get_hit {c : AICache V} {k : String} {now : Int} {e : CacheEntry V}
    (h : lookupEntry c.cache k = some e) (hexp : ¬ e.expires_at < now) :
    c.get k now =
      (some e.value,
       { c with cache := moveToEnd (setEntry c.cache k
             { e with hit_count := e.hit_count + 1, last_accessed := now }) k,
                stats := { c.stats with hits := c.stats.hits + 1 } }) := by
  have hb : e.is_expired now = false := by
    simp only [CacheEntry.is_expired, decide_eq_false_iff_not]
    exact hexp
  simp only [AICache.get, h, hb, if_false, Bool.false_eq_true]

theorem set_existing {c : AICache V} {key : String} {e : CacheEntry V}
    (ep : String) (v : V) (ttl : Option Nat) (now : Int)
    (h : lookupEntry c.cache key = some e) :
    c.set ep key v ttl now =
      ({ c with cache :=
           moveToEnd (setEntry c.cache key (mkEntry v now (resolveTtl ep ttl))) key },
       key) := by
  simp only [AICache.set, h, Option.isSome_some, if_true]

/-! ## Per-operation preservation lemmas -/

theorem get_max (c : AICache V) (k : String) (now : Int) :
    ((c.get k now).2).max_size = c.max_size := by
  cases h : lookupEntry c.cache k with
  | none => rw [get_miss now h]
  | some e =>
    by_cases hexp : e.expires_at < now
    · rw [get_expired h hexp]
    · rw [get_hit h hexp]

theorem get_length_le (c : AICache V) (k : String) (now : Int) :
    ((c.get k now).2).cache.length ≤ c.cache.length := by
  cases h : lookupEntry c.cache k with
  | none => rw [get_miss now h]
  | some e =>
    by_cases hexp : e.expires_at < now
    · rw [get_expired h hexp]
      exact eraseEntry_length_le c.cache k
    · rw [get_hit h hexp]
      show (moveToEnd (setEntry c.cache k _) k).length ≤ c.cache.length
      rw [moveToEnd_length, setEntry_length_of_some _ h]

theorem invalidate_max (c : AICache V) (k : String) :
    ((c.invalidate k).2).max_size = c.max_size := by
  unfold AICache.invalidate
  split <;> rfl

theorem invalidate_length_le (c : AICache V) (k : String) :
    ((c.invalidate k).2).cache.length ≤ c.cache.length := by
  unfold AICache.invalidate
  split
  · exact eraseEntry_length_le c.cache k
  · exact le_refl _

theorem set_max (c : AICache V) (ep k : String) (v : V) (ttl : Option Nat)
    (now : Int) : ((c.set ep k v ttl now).1).max_size = c.max_size := by
  cases h : lookupEntry c.cache k with
  | some e => rw [set_existing ep v ttl now h]
  | none =>
    simp only [AICache.set, h, Option.isSome_none, Bool.false_eq_true, if_false]
    exact evictLoop_max c

theorem set_length_le {c : AICache V} (ep k : String) (v : V) (ttl : Option Nat)
    (now : Int) (h1 : 1 ≤ c.max_size) (h2 : c.cache.length ≤ c.max_size) :
    ((c.set ep k v ttl now).1).cache.length ≤ c.max_size := by
  cases h : lookupEntry c.cache k with
  | some e =>
    rw [set_existing ep v ttl now h]
    show (moveToEnd (setEntry c.cache k _) k).length ≤ c.max_size
    rw [moveToEnd_length, setEntry_length_of_some _ h]
    exact h2
  | none =>
    obtain ⟨hshape, -⟩ := set_fresh_shape ep v ttl now h
    rw [hshape, List.length_append]
    rcases evictLoop_stop c with hlt | hz
    · simp only [List.length_singleton]
      omega
    · rw [hz]
      simpa using h1

theorem applyOp_preserves {c : AICache V} (op : CacheOp V)
    (h1 : 1 ≤ c.max_size) (h2 : c.cache.length ≤ c.max_size) :
    (applyOp c op).max_size = c.max_size ∧
    (applyOp c op).cache.length ≤ c.max_size := by
  cases op with
  | get k now => exact ⟨get_max c k now, le_trans (get_length_le c k now) h2⟩
  | set ep k v ttl now =>
    exact ⟨set_max c ep k v ttl now, set_length_le ep k v ttl now h1 h2⟩
  | invalidate k =>
    exact ⟨invalidate_max c k, le_trans (invalidate_length_le c k) h2⟩

theorem applyOps_bound {V : Type} {c : AICache V} {C : Nat}
    (ops : List (CacheOp V)) (h1 : 1 ≤ C) (hm : c.max_size = C)
    (hl : c.cache.length ≤ C) : (applyOps c ops).cache.length ≤ C := by
  induction ops generalizing c with
  | nil => exact hl
  | cons op rest ih =>
    have hp := applyOp_preserves op (hm ▸ h1) (hm ▸ hl)
    show (applyOps (applyOp c op) rest).cache.length ≤ C
    exact ih (hp.1.trans hm) (hm ▸ hp.2)

theorem evictOldest_cache (c : AICache V) : (evictOldest c).cache = c.cache.tail := by
  rcases c with ⟨m, cc, st⟩
  cases cc <;> rfl

theorem evictOldest_evictions {c : AICache V} (h : 0 < c.cache.length) :
    (evictOldest c).stats.evictions = c.stats.evictions + 1 := by
  rcases c with ⟨m, cc, st⟩
  cases cc with
  | nil => simp at h
  | cons p rest => rfl

/-- Inserting a fresh fingerprint into a cache exactly at capacity drops
precisely the head (the least-recently-used entry) and appends the new
entry at the most-recently-used end, bumping the eviction counter once. -/
theorem set_at_capacity {c : AICache V} (ep key : String) (v : V)
    (ttl : Option Nat) (now : Int)
    (hfresh : lookupEntry c.cache key = none)
    (hcap : c.cache.length = c.max_size) (h1 : 1 ≤ c.max_size) :
    (c.set ep key v ttl now).1.cache =
      c.cache.tail ++ [(key, mkEntry v now (resolveTtl ep ttl))] ∧
    (c.set ep key v ttl now).1.stats.evictions = c.stats.evictions + 1 := by
  obtain ⟨hshape, -⟩ := set_fresh_shape ep v ttl now hfresh
  have hloop := evictLoop_at_cap h1 hcap
  have hpos : 0 < c.cache.length := by omega
  constructor
  · rw [hshape, hloop, evictOldest_cache]
  · simp only [AICache.set, hfresh, Option.isSome_none, Bool.false_eq_true, if_false]
    show (evictLoop c).stats.evictions = c.stats.evictions + 1
    rw [hloop]
    exact evictOldest_evictions hpos

/-- The most-recently-used entry survives the insertion of a fresh
fingerprint whenever at least one older entry exists. -/
theorem mru_survives {c : AICache V} (ep key : String) (v : V)
    (ttl : Option Nat) (now : Int) {p : String × CacheEntry V}
    (hfresh : lookupEntry c.cache key = none)
    (hlen : c.cache.length ≤ c.max_size) (h2 : 2 ≤ c.cache.length)
    (hlast : c.cache.getLast? = some p) :
    p ∈ (c.set ep key v ttl now).1.cache := by
  obtain ⟨hshape, -⟩ := set_fresh_shape ep v ttl now hfresh
  rw [hshape]
  apply List.mem_append_left
  rcases Nat.lt_or_ge c.cache.length c.max_size with hl | hg
  · rw [evictLoop_of_lt hl]
    exact getLast?_mem hlast
  · have hcap : c.cache.length = c.max_size := le_antisymm hlen hg
    have h1 : 1 ≤ c.max_size := by omega
    rw [evictLoop_at_cap h1 hcap, evictOldest_cache]
    cases hc : c.cache with
    | nil => rw [hc] at h2; simp at h2
    | cons q rest =>
      rw [hc] at hlast h2
      cases rest with
      | nil => simp at h2
      | cons r rest' =>
        rw [List.getLast?_cons_cons] at hlast
        exact getLast?_mem hlast

/-- Store a fresh fingerprint with an explicit ttl, read it back one second
later (a hit), read it again just past expiry (a proactive removal). -/
theorem ttl_roundtrip {c : AICache V} (ep key : String) (v : V) {ttl : Nat}
    (t0 : Int) (hfresh : lookupEntry c.cache key = none) (httl : 1 < ttl) :
    (((c.set ep key v (some ttl) t0).1).get key (t0 + 1)).1 = some v ∧
    ((((c.set ep key v (some ttl) t0).1.get key (t0 + 1)).2).get key
        (t0 + (ttl : Int) + 1)).1 = none ∧
    lookupEntry ((((c.set ep key v (some ttl) t0).1.get key (t0 + 1)).2).get key
        (t0 + (ttl : Int) + 1)).2.cache key = none := by
  obtain ⟨hshape, hpre⟩ := set_fresh_shape ep v (some ttl) t0 hfresh
  have hres : resolveTtl ep (some ttl) = ttl := rfl
  rw [hres] at hshape
  have hlook1 : lookupEntry ((c.set ep key v (some ttl) t0).1).cache key =
      some (mkEntry v t0 ttl) := by
    rw [hshape]
    exact lookupEntry_shape _ hpre
  have hne : ¬ (mkEntry v t0 ttl : CacheEntry V).expires_at < t0 + 1 := by
    simp only [mkEntry]
    omega
  have h2cache : (((c.set ep key v (some ttl) t0).1).get key (t0 + 1)).2.cache =
      (evictLoop c).cache ++ [(key, (⟨v, t0, t0 + (ttl : Int), 1, t0 + 1⟩ : CacheEntry V))] := by
    rw [get_hit hlook1 hne]
    show moveToEnd (setEntry ((c.set ep key v (some ttl) t0).1).cache key _) key = _
    rw [hshape, setEntry_shape (mkEntry v t0 ttl) _ hpre, moveToEnd_shape _ hpre,
      List.append_nil]
    rfl
  have hlook2 : lookupEntry ((((c.set ep key v (some ttl) t0).1).get key (t0 + 1)).2).cache key =
      some (⟨v, t0, t0 + (ttl : Int), 1, t0 + 1⟩ : CacheEntry V) := by
    rw [h2cache]
    exact lookupEntry_shape _ hpre
  have hexp2 : (⟨v, t0, t0 + (ttl : Int), 1, t0 + 1⟩ : CacheEntry V).expires_at <
      t0 + (ttl : Int) + 1 := by
    simp only []
    omega
  refine ⟨?_, ?_, ?_⟩
  · rw [get_hit hlook1 hne]
    rfl
  · rw [get_expired hlook2 hexp2]
  · rw [get_expired hlook2 hexp2]
    show lookupEntry (eraseEntry ((((c.set ep key v (some ttl) t0).1).get key (t0 + 1)).2).cache key) key = none
    rw [h2cache, eraseEntry_shape _ hpre, List.append_nil]
    exact hpre

/-- Storing under an already-present fingerprint: entry replaced in place
and moved to the most-recently-used end, no eviction, statistics and all
other entries untouched. -/
theorem set_existing_frame {c : AICache V} (ep key : String) (v : V)
    (ttl : Option Nat) (now : Int) {e : CacheEntry V}
    (hnd : (c.cache.map (fun p => p.1)).Nodup)
    (h : lookupEntry c.cache key = some e) :
    (c.set ep key v ttl now).1.cache.length = c.cache.length ∧
    (c.set ep key v ttl now).1.stats = c.stats ∧
    lookupEntry (c.set ep key v ttl now).1.cache key =
      some (mkEntry v now (resolveTtl ep ttl)) ∧
    (c.set ep key v ttl now).1.cache.getLast? =
      some (key, mkEntry v now (resolveTtl ep ttl)) ∧
    ∀ k', k' ≠ key → lookupEntry (c.set ep key v ttl now).1.cache k' =
      lookupEntry c.cache k' := by
  obtain ⟨pre, suf, hdec, hpre⟩ := lookup_decomp h
  have hsuf : lookupEntry suf key = none := by
    apply lookupEntry_not_mem
    rw [hdec] at hnd
    simp only [List.map_append, List.map_cons] at hnd
    have h2 := List.Nodup.of_append_right hnd
    exact (List.nodup_cons.mp h2).1
  have hps : lookupEntry (pre ++ suf) key = none := by
    rw [lookupEntry_none_append hpre]
    exact hsuf
  have hcache : (c.set ep key v ttl now).1.cache =
      (pre ++ suf) ++ [(key, mkEntry v now (resolveTtl ep ttl))] := by
    rw [set_existing ep v ttl now h]
    show moveToEnd (setEntry c.cache key (mkEntry v now (resolveTtl ep ttl))) key = _
    rw [hdec, setEntry_shape e _ hpre, moveToEnd_shape _ hpre]
  refine ⟨?_, ?_, ?_, ?_, ?_⟩
  · rw [hcache, hdec]
    simp [List.length_append]
  · rw [set_existing ep v ttl now h]
  · rw [hcache]
    exact lookupEntry_shape _ hps
  · rw [hcache]
    exact List.getLast?_concat _
  · intro k' hk'
    rw [hcache]
    have hL : lookupEntry ((pre ++ suf) ++ [(key, mkEntry v now (resolveTtl ep ttl))]) k' =
        lookupEntry (pre ++ suf) k' := by
      rw [lookupEntry_middle_ne _ hk', List.append_nil]
    have hR : lookupEntry c.cache k' = lookupEntry (pre ++ suf) k' := by
      rw [hdec, lookupEntry_middle_ne _ hk']
    rw [hL, hR]

/-! ## Claim theorems for the response cache -/

/-- C1: the live cache-entry count never exceeds the configured capacity:
for every sequence of get/set/invalidate operations on an `AICache` with
`max_size = C ≥ 1` the number of stored entries stays `≤ C`; a `set` that
inserts a fresh fingerprint while exactly at capacity evicts exactly one
entry — the least-recently-accessed one at the head of the recency order
(recency updated by hits) — bumping the eviction counter once; the
most-recently-accessed entry is never evicted while older entries remain;
and with capacity 2 the sequence insert A, insert B, read A, insert C
leaves exactly A and C, with B evicted. -/
theorem cache_capacity_lru_eviction :
    (∀ (V : Type) (C : Nat) (ops : List (CacheOp V)), 1 ≤ C →
      (applyOps (emptyCache V C) ops).cache.length ≤ C) ∧
    (∀ (V : Type) (c : AICache V) (ep key : String) (v : V) (ttl : Option Nat)
      (now : Int), lookupEntry c.cache key = none →
      c.cache.length = c.max_size → 1 ≤ c.max_size →
      (c.set ep key v ttl now).1.cache =
        c.cache.tail ++ [(key, mkEntry v now (resolveTtl ep ttl))] ∧
      (c.set ep key v ttl now).1.stats.evictions = c.stats.evictions + 1) ∧
    (∀ (V : Type) (c : AICache V) (ep key : String) (v : V) (ttl : Option Nat)
      (now : Int) (p : String × CacheEntry V), lookupEntry c.cache key = none →
      c.cache.length ≤ c.max_size → 2 ≤ c.cache.length →
      c.cache.getLast? = some p → p ∈ (c.set ep key v ttl now).1.cache) ∧
    (lruScenario.cache.map (fun q => q.1) = ["A", "C"] ∧
     lruScenario.stats.evictions = 1 ∧
     (lruScenario.get "B" 4).1 = none ∧
     (lruScenario.get "A" 4).1 = some "va") := by
  refine ⟨?_, ?_, ?_, ?_⟩
  · intro V C ops h1
    exact applyOps_bound ops h1 rfl (by simp [emptyCache])
  · intro V c ep key v ttl now hfresh hcap h1
    exact set_at_capacity ep key v ttl now hfresh hcap h1
  · intro V c ep key v ttl now p hfresh hlen h2 hlast
    exact mru_survives ep key v ttl now hfresh hlen h2 hlast
  · exact ⟨by decide, by decide, by decide, by decide⟩

/-- Witness for C1 at a concrete input: three inserts into a capacity-2
cache keep the entry count at 2. -/
theorem cache_capacity_lru_eviction_witness :
    (applyOps (emptyCache String 2)
      [CacheOp.set "chat" "A" "x" (some 10) 0,
       CacheOp.set "chat" "B" "y" (some 10) 1,
       CacheOp.set "chat" "C" "z" (some 10) 2]).cache.length ≤ 2 :=
  cache_capacity_lru_eviction.1 String 2
    [CacheOp.set "chat" "A" "x" (some 10) 0,
     CacheOp.set "chat" "B" "y" (some 10) 1,
     CacheOp.set "chat" "C" "z" (some 10) 2] (by decide)

/-- C2: cache lookup never returns an expired entry: whenever the stored
entry's `expires_at` has passed, `get` returns `None`, counts a miss and
removes the entry; and an entry stored with `ttl > 1` is retrievable at
`t0 + 1` and absent (and removed) at `t0 + ttl + 1`. -/
theorem cache_never_returns_expired :
    (∀ (V : Type) (c : AICache V) (key : String) (now : Int) (e : CacheEntry V),
      lookupEntry c.cache key = some e → e.expires_at < now →
      (c.get key now).1 = none ∧
      (c.get key now).2.cache = eraseEntry c.cache key ∧
      (c.get key now).2.stats.misses = c.stats.misses + 1) ∧
    (∀ (V : Type) (c : AICache V) (ep key : String) (v : V) (ttl : Nat)
      (t0 : Int), lookupEntry c.cache key = none → 1 < ttl →
      (((c.set ep key v (some ttl) t0).1).get key (t0 + 1)).1 = some v ∧
      ((((c.set ep key v (some ttl) t0).1.get key (t0 + 1)).2).get key
          (t0 + (ttl : Int) + 1)).1 = none ∧
      lookupEntry ((((c.set ep key v (some ttl) t0).1.get key (t0 + 1)).2).get key
          (t0 + (ttl : Int) + 1)).2.cache key = none) := by
  constructor
  · intro V c key now e h hexp
    refine ⟨?_, ?_, ?_⟩
    · rw [get_expired h hexp]
    · rw [get_expired h hexp]
    · rw [get_expired h hexp]
  · intro V c ep key v ttl t0 hfresh httl
    exact ttl_roundtrip ep key v t0 hfresh httl

/-- Witness for C2: a value stored at time 0 with ttl 10 is readable at
time 1 and gone at time 11. -/
theorem cache_never_returns_expired_witness :
    ((((emptyCache String 4).set "chat" "K" "resp" (some 10) 0).1).get "K" (0 + 1)).1 =
        some "resp" ∧
    (((((emptyCache String 4).set "chat" "K" "resp" (some 10) 0).1.get "K" (0 + 1)).2).get "K"
        (0 + (10 : Int) + 1)).1 = none :=
  ⟨(cache_never_returns_expired.2 String (emptyCache String 4) "chat" "K" "resp" 10 0
      rfl (by decide)).1,
   (cache_never_returns_expired.2 String (emptyCache String 4) "chat" "K" "resp" 10 0
      rfl (by decide)).2.1⟩

/-- C10: storing under a fingerprint already present replaces that entry's
value and expiry in place, moves it to the most-recently-used position, and
evicts nothing: the entry count, all statistics (including the eviction
counter) and every other entry are unchanged — also when the cache is
exactly at capacity, since the at-capacity eviction loop is skipped on the
update path. -/
theorem set_existing_key_frame :
    ∀ (V : Type) (c : AICache V) (ep key : String) (v : V) (ttl : Option Nat)
      (now : Int) (e : CacheEntry V),
      (c.cache.map (fun p => p.1)).Nodup →
      lookupEntry c.cache key = some e →
      (c.set ep key v ttl now).1.cache.length = c.cache.length ∧
      (c.set ep key v ttl now).1.stats = c.stats ∧
      lookupEntry (c.set ep key v ttl now).1.cache key =
        some (mkEntry v now (resolveTtl ep ttl)) ∧
      (c.set ep key v ttl now).1.cache.getLast? =
        some (key, mkEntry v now (resolveTtl ep ttl)) ∧
      (∀ k', k' ≠ key → lookupEntry (c.set ep key v ttl now).1.cache k' =
        lookupEntry c.cache k') := by
  intro V c ep key v ttl now e hnd h
  exact set_existing_frame ep key v ttl now hnd h

/-- Witness for C10 on a cache exactly at capacity 1. -/
theorem set_existing_key_frame_witness :
    (((⟨1, [("K", mkEntry "old" 0 10)], ⟨0, 0, 0, 1, 1⟩⟩ : AICache String).set
        "chat" "K" "new" (some 20) 5).1.cache.length = 1 ∧
     ((⟨1, [("K", mkEntry "old" 0 10)], ⟨0, 0, 0, 1, 1⟩⟩ : AICache String).set
        "chat" "K" "new" (some 20) 5).1.stats = ⟨0, 0, 0, 1, 1⟩) := by
  have h := set_existing_key_frame String
    (⟨1, [("K", mkEntry "old" 0 10)], ⟨0, 0, 0, 1, 1⟩⟩ : AICache String)
    "chat" "K" "new" (some 20) 5 (mkEntry "old" 0 10) (by decide) rfl
  exact ⟨h.1, h.2.1⟩

/-! ## `invalidate_by_endpoint`: deleting the collected keys is filtering -/

theorem foldl_erase_cons_not_mem (x : String × CacheEntry V)
    (rest : List (String × CacheEntry V)) (ks : List String) (h : x.1 ∉ ks) :
    ks.foldl (fun acc k => eraseEntry acc k) (x :: rest) =
      x :: ks.foldl (fun acc k => eraseEntry acc k) rest := by
  induction ks generalizing rest with
  | nil => rfl
  | cons k ks ih =>
    simp only [List.mem_cons] at h
    push_neg at h
    simp only [List.foldl_cons]
    have he : eraseEntry (x :: rest) k = x :: eraseEntry rest k := by
      simp only [eraseEntry]
      rw [if_neg (by simpa using h.1)]
    rw [he]
    exact ih (eraseEntry rest k) h.2

theorem foldl_erase_filter {l : List (String × CacheEntry V)}
    (q : String × CacheEntry V → Bool)
    (hnd : (l.map (fun p => p.1)).Nodup) :
    ((l.filter q).map (fun p => p.1)).foldl (fun acc k => eraseEntry acc k) l =
      l.filter (fun p => !(q p)) := by
  induction l with
  | nil => rfl
  | cons x rest ih =>
    simp only [List.map_cons, List.nodup_cons] at hnd
    obtain ⟨hx, hrest⟩ := hnd
    by_cases hq : q x = true
    · rw [List.filter_cons_of_pos hq]
      simp only [List.map_cons, List.foldl_cons]
      have he : eraseEntry (x :: rest) x.1 = rest := by
        simp only [eraseEntry]
        rw [if_pos (by simp)]
      rw [he, ih hrest, List.filter_cons_of_neg (by simp [hq])]
    · have hnotin : x.1 ∉ (rest.filter q).map (fun p => p.1) := by
        intro hmem
        apply hx
        obtain ⟨p, hp, hpe⟩ := List.mem_map.mp hmem
        exact hpe ▸ List.mem_map_of_mem _ (List.mem_of_mem_filter hp)
      rw [List.filter_cons_of_neg (by simpa using hq),
        foldl_erase_cons_not_mem x rest _ hnotin, ih hrest,
        List.filter_cons_of_pos (by simpa using hq)]

/-- C9 amended: `invalidate_by_endpoint` removes exactly those entries whose
cached value carries a `"_endpoint"` field equal to the given endpoint (not
the entries stored under that endpoint, which the hashed key cannot
recover), returns the number of such entries, and leaves every other entry
and all hit/miss/eviction counters intact. -/
theorem invalidateByEndpoint_matches_value_tag :
    ∀ (c : AICache PyDict) (ep : String),
      (c.cache.map (fun p => p.1)).Nodup →
      (c.invalidateByEndpoint ep).1.cache =
        c.cache.filter (fun p => !(pyGet p.2.value "_endpoint" == some ep)) ∧
      (c.invalidateByEndpoint ep).2 =
        (c.cache.filter (fun p => pyGet p.2.value "_endpoint" == some ep)).length ∧
      (c.invalidateByEndpoint ep).1.stats.hits = c.stats.hits ∧
      (c.invalidateByEndpoint ep).1.stats.misses = c.stats.misses ∧
      (c.invalidateByEndpoint ep).1.stats.evictions = c.stats.evictions := by
  intro c ep hnd
  refine ⟨?_, ?_, rfl, rfl, rfl⟩
  · show ((c.cache.filter _).map (fun p => p.1)).foldl
        (fun acc k => eraseEntry acc k) c.cache = _
    exact foldl_erase_filter _ hnd
  · show ((c.cache.filter _).map (fun p => p.1)).length = _
    rw [List.length_map]

/-- Witness for C9's amended statement: of two entries, exactly the one
whose value is tagged `"_endpoint": "chat"` is counted for removal. -/
theorem invalidateByEndpoint_matches_value_tag_witness :
    ((⟨5, [("K1", ⟨[("_endpoint", "chat")], 0, 10, 0, 0⟩),
           ("K2", ⟨[("answer", "x")], 0, 10, 0, 0⟩)],
        ⟨0, 0, 0, 2, 5⟩⟩ : AICache PyDict).invalidateByEndpoint "chat").2 = 1 := by
  have h := invalidateByEndpoint_matches_value_tag
    (⟨5, [("K1", ⟨[("_endpoint", "chat")], 0, 10, 0, 0⟩),
          ("K2", ⟨[("answer", "x")], 0, 10, 0, 0⟩)],
       ⟨0, 0, 0, 2, 5⟩⟩ : AICache PyDict) "chat" (by decide)
  rw [h.2.1]
  decide

/-- C9 counterexample: an entry stored under endpoint "chat" whose cached
value does not carry the reserved `"_endpoint"` field is not removed by
`invalidate_by_endpoint("chat")` — the operation reports 0 removed and the
entry survives, so it does not remove "exactly those cache entries that
were stored under that endpoint". -/
theorem invalidateByEndpoint_misses_stored_endpoint :
    ((((emptyCache PyDict 10).set "chat" "K" [("answer", "hi")] none 0).1).invalidateByEndpoint
        "chat").2 = 0 ∧
    ((((emptyCache PyDict 10).set "chat" "K" [("answer", "hi")] none 0).1).invalidateByEndpoint
        "chat").1.cache.length = 1 := by
  exact ⟨by decide, by decide⟩

/-! ## Claim theorems for the rate limiter -/

/-- C3: the three trailing windows are evaluated in the order minute, hour,
day; the first window whose count is at-or-over its threshold raises
immediately (the later windows cannot affect the outcome), a caller within
all three thresholds is allowed; and with the Faculty defaults
{5/min, 50/hour, 200/day} five calls inside one minute succeed while the
sixth raises QuotaExceeded with window="minute", current=5, limit=5. -/
theorem rate_limit_window_order :
    (∀ (ev : List AIUsage) (cfg : List RateLimitConfig) (uid role ep : String)
      (now : Int),
      (getRateLimits cfg uid role).requests_per_minute ≤
        countRequests ev uid (some ep) (now - 60) →
      checkRateLimit ev cfg uid role ep now = .error
        ⟨rateLimitMessage (countRequests ev uid (some ep) (now - 60))
            (getRateLimits cfg uid role).requests_per_minute "minute",
          "minute", countRequests ev uid (some ep) (now - 60),
          (getRateLimits cfg uid role).requests_per_minute, now⟩) ∧
    (∀ (ev : List AIUsage) (cfg : List RateLimitConfig) (uid role ep : String)
      (now : Int),
      countRequests ev uid (some ep) (now - 60) <
        (getRateLimits cfg uid role).requests_per_minute →
      (getRateLimits cfg uid role).requests_per_hour ≤
        countRequests ev uid (some ep) (now - 3600) →
      checkRateLimit ev cfg uid role ep now = .error
        ⟨rateLimitMessage (countRequests ev uid (some ep) (now - 3600))
            (getRateLimits cfg uid role).requests_per_hour "hour",
          "hour", countRequests ev uid (some ep) (now - 3600),
          (getRateLimits cfg uid role).requests_per_hour, now⟩) ∧
    (∀ (ev : List AIUsage) (cfg : List RateLimitConfig) (uid role ep : String)
      (now : Int),
      countRequests ev uid (some ep) (now - 60) <
        (getRateLimits cfg uid role).requests_per_minute →
      countRequests ev uid (some ep) (now - 3600) <
        (getRateLimits cfg uid role).requests_per_hour →
      (getRateLimits cfg uid role).requests_per_day ≤
        countRequests ev uid (some ep) (now - 86400) →
      checkRateLimit ev cfg uid role ep now = .error
        ⟨rateLimitMessage (countRequests ev uid (some ep) (now - 86400))
            (getRateLimits cfg uid role).requests_per_day "day",
          "day", countRequests ev uid (some ep) (now - 86400),
          (getRateLimits cfg uid role).requests_per_day, now⟩) ∧
    (∀ (ev : List AIUsage) (cfg : List RateLimitConfig) (uid role ep : String)
      (now : Int),
      countRequests ev uid (some ep) (now - 60) <
        (getRateLimits cfg uid role).requests_per_minute →
      countRequests ev uid (some ep) (now - 3600) <
        (getRateLimits cfg uid role).requests_per_hour →
      countRequests ev uid (some ep) (now - 86400) <
        (getRateLimits cfg uid role).requests_per_day →
      checkRateLimit ev cfg uid role ep now = .ok (true, none)) ∧
    ((∀ k, k ≤ 4 →
      checkRateLimit (List.replicate k ⟨"u1", "chat", 995⟩) [] "u1" "Faculty"
        "chat" 1000 = .ok (true, none)) ∧
     checkRateLimit (List.replicate 5 ⟨"u1", "chat", 995⟩) [] "u1" "Faculty"
        "chat" 1000 =
       .error ⟨rateLimitMessage 5 5 "minute", "minute", 5, 5, 1000⟩) := by
  refine ⟨?_, ?_, ?_, ?_, ?_, ?_⟩
  · intro ev cfg uid role ep now h1
    simp only [checkRateLimit, windowSpecs, checkWindows, rateLimitMessage]
    rw [if_pos h1]
    have hnow : now - 60 + 60 = now := by omega
    rw [hnow]
  · intro ev cfg uid role ep now h1 h2
    simp only [checkRateLimit, windowSpecs, checkWindows, rateLimitMessage]
    rw [if_neg (by omega), if_pos h2]
    have hnow : now - 3600 + 3600 = now := by omega
    rw [hnow]
  · intro ev cfg uid role ep now h1 h2 h3
    simp only [checkRateLimit, windowSpecs, checkWindows, rateLimitMessage]
    rw [if_neg (by omega), if_neg (by omega), if_pos h3]
    have hnow : now - 86400 + 86400 = now := by omega
    rw [hnow]
  · intro ev cfg uid role ep now h1 h2 h3
    simp only [checkRateLimit, windowSpecs, checkWindows]
    rw [if_neg (by omega), if_neg (by omega), if_neg (by omega)]
  · intro k hk
    interval_cases k <;> rfl
  · rfl

/-- Witness for C3: the sixth same-minute Faculty call raises with
window="minute", current=5, limit=5. -/
theorem rate_limit_window_order_witness :
    checkRateLimit (List.replicate 5 ⟨"w", "chat", 995⟩) [] "w" "Faculty"
        "chat" 1000 =
      .error ⟨rateLimitMessage 5 5 "minute", "minute", 5, 5, 1000⟩ :=
  rate_limit_window_order.1 (List.replicate 5 ⟨"w", "chat", 995⟩) [] "w"
    "Faculty" "chat" 1000 (by decide)

/-- C4: policy resolution is first-match-wins in the order: active override
keyed to the exact caller, then active override keyed to the role, then the
built-in per-role default table; and with a caller override of 1000/day
alongside a role override of 500/day, that caller resolves to 1000/day, so
the day window is checked against 1000. -/
theorem policy_resolution_first_match :
    (∀ (cfg : List RateLimitConfig) (uid role : String) (c : RateLimitConfig),
      cfg.find? (fun c => c.target_type == "user" && c.target_value == uid &&
        c.is_active) = some c →
      getRateLimits cfg uid role =
        ⟨c.requests_per_minute, c.requests_per_hour, c.requests_per_day⟩) ∧
    (∀ (cfg : List RateLimitConfig) (uid role : String) (c : RateLimitConfig),
      cfg.find? (fun c => c.target_type == "user" && c.target_value == uid &&
        c.is_active) = none →
      cfg.find? (fun c => c.target_type == "role" && c.target_value == role &&
        c.is_active) = some c →
      getRateLimits cfg uid role =
        ⟨c.requests_per_minute, c.requests_per_hour, c.requests_per_day⟩) ∧
    (∀ (cfg : List RateLimitConfig) (uid role : String),
      cfg.find? (fun c => c.target_type == "user" && c.target_value == uid &&
        c.is_active) = none →
      cfg.find? (fun c => c.target_type == "role" && c.target_value == role &&
        c.is_active) = none →
      getRateLimits cfg uid role =
        (DEFAULT_RATE_LIMITS.lookup role).getD ⟨10, 100, 500⟩) ∧
    (getRateLimits
        [⟨"role", "Faculty", 5, 50, 500, true⟩, ⟨"user", "u1", 5, 50, 1000, true⟩]
        "u1" "Faculty" = ⟨5, 50, 1000⟩ ∧
     windowSpecs (getRateLimits
        [⟨"role", "Faculty", 5, 50, 500, true⟩, ⟨"user", "u1", 5, 50, 1000, true⟩]
        "u1" "Faculty") =
       [("minute", 60, 5), ("hour", 3600, 50), ("day", 86400, 1000)]) := by
  refine ⟨?_, ?_, ?_, by decide, by decide⟩
  · intro cfg uid role c h1
    unfold getRateLimits
    rw [h1]
  · intro cfg uid role c h1 h2
    unfold getRateLimits
    rw [h1, h2]
  · intro cfg uid role h1 h2
    unfold getRateLimits
    rw [h1, h2]

/-- Witness for C4: a single active caller-keyed override resolves to its
own thresholds. -/
theorem policy_resolution_first_match_witness :
    getRateLimits [⟨"user", "u9", 7, 70, 700, true⟩] "u9" "Chair" =
      ⟨7, 70, 700⟩ :=
  policy_resolution_first_match.1 [⟨"user", "u9", 7, 70, 700, true⟩] "u9"
    "Chair" ⟨"user", "u9", 7, 70, 700, true⟩ rfl

/-- C5 counterexample: five events, all on endpoint "chat", are counted in
full when the same caller is checked on endpoint "analyze": the count is 5
although no event has endpoint "analyze", and the "analyze" check raises —
contradicting "events of the same caller on other endpoints are not
counted". -/
theorem count_ignores_endpoint_counterexample :
    (List.replicate 5 (⟨"u2", "chat", 950⟩ : AIUsage)).all
        (fun e => !(e.endpoint == "analyze")) = true ∧
    countRequests (List.replicate 5 ⟨"u2", "chat", 950⟩) "u2" (some "analyze")
        940 = 5 ∧
    checkRateLimit (List.replicate 5 ⟨"u2", "chat", 950⟩) [] "u2" "Faculty"
        "analyze" 1000 =
      .error ⟨rateLimitMessage 5 5 "minute", "minute", 5, 5, 1000⟩ := by
  exact ⟨by decide, by decide, rfl⟩

/-- C5 amended: the usage count compared against each window's threshold is
the number of the caller's UsageEvents inside the trailing window across
ALL endpoints — the endpoint argument does not influence the count, and the
whole check is insensitive to the endpoint. -/
theorem count_scoped_to_caller_only :
    ∀ (ev : List AIUsage) (uid : String) (ep1 ep2 : Option String) (since : Int),
      countRequests ev uid ep1 since = countRequests ev uid ep2 since ∧
      countRequests ev uid ep1 since =
        (ev.filter (fun e => e.user_id == uid && since ≤ e.request_timestamp)).length ∧
      ∀ (cfg : List RateLimitConfig) (role epA epB : String) (now : Int),
        checkRateLimit ev cfg uid role epA now =
          checkRateLimit ev cfg uid role epB now := by
  intro ev uid ep1 ep2 since
  exact ⟨rfl, List.countP_eq_length_filter _ _, fun cfg role epA epB now => rfl⟩

/-- C6 counterexample: for an unrecognized role with no overrides the
resolver returns the hardcoded fallback {10, 100, 500}; the Faculty entry
of the default table is {5, 50, 200}, so the fallback's per-minute
threshold is NOT at most that of every entry of the table. -/
theorem fallback_not_most_conservative :
    getRateLimits [] "u0" "Visitor" = ⟨10, 100, 500⟩ ∧
    DEFAULT_RATE_LIMITS.lookup "Faculty" = some ⟨5, 50, 200⟩ ∧
    ¬((getRateLimits [] "u0" "Visitor").requests_per_minute ≤
      ((DEFAULT_RATE_LIMITS.lookup "Faculty").getD ⟨0, 0, 0⟩).requests_per_minute) := by
  exact ⟨rfl, rfl, by decide⟩

/-- C6 amended: resolution is total (never raises) and for a caller whose
role has no active override and is **not** in the default table it returns
the hardcoded fallback {10, 100, 500} — which equals the Chair/PROC
defaults but exceeds the Faculty thresholds, i.e. it is conservative but
not the most conservative entry of the table. -/
theorem fallback_for_unknown_role :
    ∀ (cfg : List RateLimitConfig) (uid role : String),
      cfg.find? (fun c => c.target_type == "user" && c.target_value == uid &&
        c.is_active) = none →
      cfg.find? (fun c => c.target_type == "role" && c.target_value == role &&
        c.is_active) = none →
      DEFAULT_RATE_LIMITS.lookup role = none →
      getRateLimits cfg uid role = ⟨10, 100, 500⟩ := by
  intro cfg uid role h1 h2 h3
  unfold getRateLimits
  rw [h1, h2, h3]
  rfl

/-- Witness for C6's amended statement at the unknown role "Student". -/
theorem fallback_for_unknown_role_witness :
    getRateLimits [] "u5" "Student" = ⟨10, 100, 500⟩ :=
  fallback_for_unknown_role [] "u5" "Student" rfl rfl rfl

/-- C8 amended: every raised QuotaExceeded carries the violated window's
name, the observed count of that window and its configured limit, but its
reset time equals `window_start + duration` — that is, the evaluation
instant `now` itself, a lower bound of the moment the oldest counted event
ages out, not the oldest counted event's timestamp plus the window
duration. -/
theorem quota_exceeded_payload :
    ∀ (ev : List AIUsage) (cfg : List RateLimitConfig) (uid role ep : String)
      (now : Int) (e : RateLimitExceeded),
      checkRateLimit ev cfg uid role ep now = .error e →
      e.reset_time = now ∧
      (e.limit_type = "minute" ∨ e.limit_type = "hour" ∨ e.limit_type = "day") ∧
      e.limit ≤ e.current_count ∧
      (e.limit_type = "minute" →
        e.current_count = countRequests ev uid (some ep) (now - 60) ∧
        e.limit = (getRateLimits cfg uid role).requests_per_minute) ∧
      (e.limit_type = "hour" →
        e.current_count = countRequests ev uid (some ep) (now - 3600) ∧
        e.limit = (getRateLimits cfg uid role).requests_per_hour) ∧
      (e.limit_type = "day" →
        e.current_count = countRequests ev uid (some ep) (now - 86400) ∧
        e.limit = (getRateLimits cfg uid role).requests_per_day) := by
  intro ev cfg uid role ep now e h
  simp only [checkRateLimit, windowSpecs, checkWindows] at h
  split_ifs at h with h1 h2 h3
  · cases h
    refine ⟨show now - 60 + 60 = now by omega, Or.inl rfl, h1,
      fun _ => ⟨rfl, rfl⟩, fun hx => absurd hx (ne_of_beq_false rfl),
      fun hx => absurd hx (ne_of_beq_false rfl)⟩
  · cases h
    refine ⟨show now - 3600 + 3600 = now by omega, Or.inr (Or.inl rfl), h2,
      fun hx => absurd hx (ne_of_beq_false rfl), fun _ => ⟨rfl, rfl⟩,
      fun hx => absurd hx (ne_of_beq_false rfl)⟩
  · cases h
    refine ⟨show now - 86400 + 86400 = now by omega, Or.inr (Or.inr rfl), h3,
      fun hx => absurd hx (ne_of_beq_false rfl), fun hx => absurd hx (ne_of_beq_false rfl),
      fun _ => ⟨rfl, rfl⟩⟩

/-- Witness for C8's amended statement: the concrete minute-window raise at
now = 1000 carries reset_time = 1000. -/
theorem quota_exceeded_payload_witness :
    (⟨rateLimitMessage 5 5 "minute", "minute", 5, 5, 1000⟩ :
      RateLimitExceeded).reset_time = 1000 :=
  (quota_exceeded_payload (List.replicate 5 ⟨"u4", "chat", 990⟩) [] "u4"
    "Faculty" "chat" 1000
    ⟨rateLimitMessage 5 5 "minute", "minute", 5, 5, 1000⟩ rfl).1

/-- C8 counterexample: five events at t = 950 and a check at now = 1000
raise on the minute window with reset_time = 1000, while the oldest counted
event's timestamp plus the window duration is 950 + 60 = 1010 ≠ 1000: the
reset time is not "the timestamp of the oldest counted UsageEvent plus the
window duration". -/
theorem reset_time_not_oldest_plus_window :
    checkRateLimit (List.replicate 5 ⟨"u3", "chat", 950⟩) [] "u3" "Faculty"
        "chat" 1000 =
      .error ⟨rateLimitMessage 5 5 "minute", "minute", 5, 5, 1000⟩ ∧
    oldestCounted (List.replicate 5 ⟨"u3", "chat", 950⟩) "u3" (1000 - 60) =
      some 950 ∧
    (950 : Int) + 60 ≠ 1000 := by
  exact ⟨rfl, rfl, by decide⟩

/-! ## Canonical serialization respects unordered structural equality -/

theorem distinctKeys_nodup : ∀ {l : List String}, distinctKeys l = true → l.Nodup
  | [], _ => List.nodup_nil
  | k :: rest, h => by
    simp only [distinctKeys, Bool.and_eq_true, Bool.not_eq_true'] at h
    refine List.nodup_cons.mpr ⟨?_, distinctKeys_nodup h.2⟩
    simpa using h.1

theorem jequivFields_keys : ∀ {fs gs : List (String × JValue)},
    JEquivFields fs gs →
    fs.map (fun p => p.1) = gs.map (fun p => p.1)
  | _, _, .nil => rfl
  | _, _, .cons h hs => by
    simp only [List.map_cons]
    rw [jequivFields_keys hs]

theorem canonFields_keys : ∀ (l : List (String × JValue)),
    (canonFields l).map (fun p => p.1) = l.map (fun p => p.1)
  | [] => rfl
  | (k, v) :: fs => by
    simp only [canonFields, List.map_cons]
    rw [canonFields_keys fs]

theorem canonFields_map (l : List (String × JValue)) :
    canonFields l = l.map (fun p => (p.1, canon p.2)) := by
  induction l with
  | nil => rfl
  | cons p fs ih =>
    rcases p with ⟨k, v⟩
    simp only [canonFields, List.map_cons]
    rw [ih]

theorem sorted_fieldLe_strengthen {l : List (String × JValue)}
    (hs : l.Sorted fieldLe) (hnd : (l.map (fun p => p.1)).Nodup) :
    l.Sorted fieldLt := by
  have hne : l.Pairwise (fun p q => p.1 ≠ q.1) := List.pairwise_map.mp hnd
  exact (List.Pairwise.and hs hne).imp (fun h => lt_of_le_of_ne h.1 h.2)

/-- Sorting by key is insensitive to the input order of the fields, as long
as the keys are distinct (as they are in any Python dict). -/
theorem sortFields_perm_eq {l1 l2 : List (String × JValue)} (hp : l1.Perm l2)
    (hnd : (l1.map (fun p => p.1)).Nodup) : sortFields l1 = sortFields l2 := by
  have hp1 : (sortFields l1).Perm l1 := List.perm_insertionSort fieldLe l1
  have hp2 : (sortFields l2).Perm l2 := List.perm_insertionSort fieldLe l2
  have hperm : (sortFields l1).Perm (sortFields l2) := hp1.trans (hp.trans hp2.symm)
  have hnd1 : ((sortFields l1).map (fun p => p.1)).Nodup :=
    ((hp1.symm).map (fun p => p.1)).nodup hnd
  have hnd2 : ((sortFields l2).map (fun p => p.1)).Nodup :=
    ((hperm).map (fun p => p.1)).nodup hnd1
  exact List.eq_of_perm_of_sorted hperm
    (sorted_fieldLe_strengthen (List.sorted_insertionSort fieldLe l1) hnd1)
    (sorted_fieldLe_strengthen (List.sorted_insertionSort fieldLe l2) hnd2)

mutual

theorem jequiv_refl : ∀ (p : JValue), JEquiv p p
  | .str s => .str s
  | .num n => .num n
  | .bool b => .bool b
  | .null => .null
  | .arr xs => .arr (jequivList_refl xs)
  | .obj fs => .obj (jequivFields_refl fs) (List.Perm.refl fs)

theorem jequivList_refl : ∀ (xs : List JValue), JEquivList xs xs
  | [] => .nil
  | x :: xs => .cons (jequiv_refl x) (jequivList_refl xs)

theorem jequivFields_refl : ∀ (fs : List (String × JValue)), JEquivFields fs fs
  | [] => .nil
  | (_, v) :: fs => .cons (jequiv_refl v) (jequivFields_refl fs)

end

mutual

/-- Unordered-structurally-equal well-formed JSON values have the same
canonical (key-sorted) form, hence the same `sort_keys=True` dump. -/
theorem canon_eq : ∀ {p q : JValue}, JEquiv p q → wfJ p = true →
    canon p = canon q
  | _, _, .str _, _ => rfl
  | _, _, .num _, _ => rfl
  | _, _, .bool _, _ => rfl
  | _, _, .null, _ => rfl
  | _, _, .arr hl, hw => by
    simp only [canon]
    rw [canonList_eq hl hw]
  | _, _, @JEquiv.obj fs gs gs' hf hperm, hw => by
    simp only [wfJ, Bool.and_eq_true] at hw
    simp only [canon]
    rw [canonFields_eq hf hw.2]
    congr 1
    apply sortFields_perm_eq
    · rw [canonFields_map gs', canonFields_map gs]
      exact hperm.map _
    · rw [canonFields_keys, ← jequivFields_keys hf]
      exact distinctKeys_nodup hw.1

theorem canonList_eq : ∀ {xs ys : List JValue}, JEquivList xs ys →
    wfList xs = true → canonList xs = canonList ys
  | _, _, .nil, _ => rfl
  | _, _, .cons h hs, hw => by
    simp only [wfList, Bool.and_eq_true] at hw
    simp only [canonList]
    rw [canon_eq h hw.1, canonList_eq hs hw.2]

theorem canonFields_eq : ∀ {fs gs : List (String × JValue)},
    JEquivFields fs gs → wfFields fs = true → canonFields fs = canonFields gs
  | _, _, .nil, _ => rfl
  | _, _, @JEquivFields.cons k v w fs gs h hs, hw => by
    simp only [wfFields, Bool.and_eq_true] at hw
    simp only [canonFields]
    rw [canon_eq h hw.1, canonFields_eq hs hw.2]

end

theorem keyParts_equiv {p1 p2 : JValue} (ep : String) (u : Option String)
    (h : JEquiv p1 p2) : JEquiv (keyParts ep p1 u) (keyParts ep p2 u) := by
  unfold keyParts
  cases u with
  | none =>
    exact .obj (.cons (jequiv_refl _) (.cons h .nil)) (List.Perm.refl _)
  | some s =>
    simp only [userField]
    by_cases hs : s = ""
    · rw [if_pos hs]
      exact .obj (.cons (jequiv_refl _) (.cons h .nil)) (List.Perm.refl _)
    · rw [if_neg hs]
      exact .obj (.cons (jequiv_refl _) (.cons h (.cons (jequiv_refl _) .nil)))
        (List.Perm.refl _)

theorem keyParts_wf {p : JValue} (ep : String) (u : Option String)
    (hw : wfJ p = true) : wfJ (keyParts ep p u) = true := by
  unfold keyParts
  cases u with
  | none => simp [userField, wfJ, wfFields, distinctKeys, hw]
  | some s =>
    simp only [userField]
    by_cases hs : s = ""
    · rw [if_pos hs]
      simp [wfJ, wfFields, distinctKeys, hw]
    · rw [if_neg hs]
      simp [wfJ, wfFields, distinctKeys, hw]

/-- C7: fingerprinting is deterministic and order-independent: for every
endpoint, caller and pair of payloads that are equal as unordered
structures (same key-value mappings regardless of field order, at any
nesting depth, with the distinct keys of Python dicts), the generated cache
keys are identical — for any digest function applied to the canonical
serialization, as `_generate_key` applies SHA-256 to
`json.dumps(key_parts, sort_keys=True)`; and the caller identity enters the
hashed `key_parts` only when a (truthy) `user_id` is supplied:
with `user_id=None` the `key_parts` object is exactly
`{"endpoint": ..., "data": ...}`. -/
theorem fingerprint_order_independent :
    (∀ (hashFn : String → String) (ep : String) (u : Option String)
      (p1 p2 : JValue), JEquiv p1 p2 → wfJ p1 = true →
      generateKey hashFn ep p1 u = generateKey hashFn ep p2 u) ∧
    (∀ (ep : String) (p : JValue),
      keyParts ep p none = .obj [("endpoint", .str ep), ("data", p)]) := by
  constructor
  · intro hashFn ep u p1 p2 h hw
    unfold generateKey dumps
    apply congrArg hashFn
    apply congrArg serializeJ
    exact canon_eq (keyParts_equiv ep u h) (keyParts_wf ep u hw)
  · intro ep p
    rfl

/-- Witness for C7: the payloads `{"a": 1, "b": 2}` and `{"b": 2, "a": 1}`
produce the same cache key. -/
theorem fingerprint_order_independent_witness :
    generateKey id "chat" (JValue.obj [("a", .num 1), ("b", .num 2)]) none =
      generateKey id "chat" (JValue.obj [("b", .num 2), ("a", .num 1)]) none :=
  fingerprint_order_independent.1 id "chat" none
    (JValue.obj [("a", .num 1), ("b", .num 2)])
    (JValue.obj [("b", .num 2), ("a", .num 1)])
    (JEquiv.obj
      (JEquivFields.cons (jequiv_refl _)
        (JEquivFields.cons (jequiv_refl _) JEquivFields.nil))
      (List.Perm.swap ("b", JValue.num 2) ("a", JValue.num 1) []))
    (by decide)
